import Mathlib

/-!
Verification of the term rewriting engine of the ChapterClip repository
(`src/search_replace_processor.py`, `src/utils/validators.py`).

Python strings are modelled as `List Char`; Python's stable `list.sort`
is modelled by `List.insertionSort` (a stable sort, so it computes the
same list as any stable sort by the same key); Python dicts (which keep
insertion order and overwrite values in place) are modelled as
association lists with an insert-or-update operation.
-/

namespace ChapterClip

/-- A candidate replacement, as built in `apply_search_replace`
(`{'start': ..., 'end': ..., 'replacement': ...}`).  The field `end`
is named `stop` because `end` is a Lean keyword. -/
structure SRMatch where
  start : Nat
  stop : Nat
  repl : List Char
deriving DecidableEq, Repr

/-- The sort key of `replacements.sort(key=lambda r: (r['start'], -r['end']))`
(line 194): lexicographic on `(start, -end)`. -/
def keyLe (a b : SRMatch) : Prop :=
  a.start < b.start ∨ (a.start = b.start ∧ b.stop ≤ a.stop)

instance : DecidableRel keyLe := fun a b => by
  unfold keyLe; infer_instance

/-- The sort order described by the specification: start ascending,
span-length descending. -/
def specLe (a b : SRMatch) : Prop :=
  a.start < b.start ∨ (a.start = b.start ∧ b.stop - b.start ≤ a.stop - a.start)

instance : DecidableRel specLe := fun a b => by
  unfold specLe; infer_instance

/-- The greedy scan of lines 197-202: accept a match when its start is
at least `lastEnd` (initially the sentinel `-1`), then move `lastEnd`
to the accepted match's end. -/
def selectNonOverlapping (lastEnd : Int) : List SRMatch → List SRMatch
  | [] => []
  | m :: rest =>
    if lastEnd ≤ (m.start : Int) then
      m :: selectNonOverlapping (m.stop : Int) rest
    else
      selectNonOverlapping lastEnd rest

/-- Lines 193-202 of `apply_search_replace`: sort by `(start, -end)`,
then greedily select a non-overlapping subset. -/
def resolveConflicts (l : List SRMatch) : List SRMatch :=
  selectNonOverlapping (-1) (List.insertionSort keyLe l)

/-- Modelled from the spec wording of the ConflictResolver: sort by
`(start ascending, span-length descending)`, then the same greedy scan
with `last_accepted_end` initialized before the text start. -/
def resolveConflictsSpec (l : List SRMatch) : List SRMatch :=
  selectNonOverlapping (-1) (List.insertionSort specLe l)

/-- The descending-start order of `winning.sort(key=lambda r: r['start'], reverse=True)`
(line 205). -/
def descStart (a b : SRMatch) : Prop := b.start ≤ a.start

instance : DecidableRel descStart := fun a b => by
  unfold descStart; infer_instance

/-- One splice of line 213:
`result = result[:start] + repl + result[end:]`. -/
def spliceOne (s : List Char) (r : SRMatch) : List Char :=
  s.take r.start ++ r.repl ++ s.drop r.stop

/-- Lines 204-215 of `apply_search_replace` (the Rewriter): sort the
accepted matches by start descending, then splice each replacement in
from the highest offset to the lowest. -/
def rewriteMatches (text : List Char) (winning : List SRMatch) : List Char :=
  (List.insertionSort descStart winning).foldl spliceOne text

/-- Modelled from the spec wording of the Rewriter guarantee: the
result is the original text with every accepted span `[start, stop)`
replaced by its replacement and every character outside accepted spans
kept; built left to right along the text. -/
def rewriteSpec (text : List Char) (pos : Nat) : List SRMatch → List Char
  | [] => text.drop pos
  | r :: rest => (text.drop pos).take (r.start - pos) ++ r.repl ++ rewriteSpec text r.stop rest

/-! ### String utilities (models of Python `str` operations, ASCII) -/

/-- ASCII model of Python `str.lower` on one character. -/
def lowerChar (c : Char) : Char :=
  if 65 ≤ c.toNat ∧ c.toNat ≤ 90 then Char.ofNat (c.toNat + 32) else c

/-- ASCII model of Python `str.lower`. -/
def lowerStr (s : List Char) : List Char := s.map lowerChar

/-- ASCII model of the regex word-character class `\w`. -/
def isWordChar (c : Char) : Bool :=
  decide ((48 ≤ c.toNat ∧ c.toNat ≤ 57) ∨ (65 ≤ c.toNat ∧ c.toNat ≤ 90) ∨
    (97 ≤ c.toNat ∧ c.toNat ≤ 122) ∨ c = '_')

/-- The regex digit class `\d` (ASCII). -/
def isDigitChar (c : Char) : Bool := decide (48 ≤ c.toNat ∧ c.toNat ≤ 57)

/-- ASCII whitespace, for Python `str.strip`. -/
def isSpaceChar (c : Char) : Bool := c == ' ' || c == '\t' || c == '\n' || c == '\r'

/-- Python `str.strip()`. -/
def stripWs (s : List Char) : List Char :=
  ((s.dropWhile isSpaceChar).reverse.dropWhile isSpaceChar).reverse

/-- Worker for `replaceAll`; the fuel is at least the length of the
remaining input, and every step consumes at least one character when
the pattern is non-empty. -/
def replaceAllGo (pat repl : List Char) : Nat → List Char → List Char
  | 0, s => s
  | _ + 1, [] => []
  | fuel + 1, c :: rest =>
    if pat.isPrefixOf (c :: rest) then
      repl ++ replaceAllGo pat repl fuel (List.drop pat.length (c :: rest))
    else
      c :: replaceAllGo pat repl fuel rest

/-- Python `s.replace(pat, repl)`: replace every non-overlapping
occurrence, scanning left to right.  All patterns used by the source
are non-empty; an empty pattern returns the input unchanged. -/
def replaceAll (s pat repl : List Char) : List Char :=
  if pat = [] then s else replaceAllGo pat repl s.length s

/-- Python `os.path.basename` (POSIX): the part after the last slash. -/
def basename (p : List Char) : List Char :=
  ((p.reverse).takeWhile (fun c => c != '/')).reverse

/-- The book-key computation of `load_search_replace_terms`
(lines 78-81): with an epub path,
`os.path.basename(epub_path).replace(".epub", "").lower().replace("_", "-")`;
otherwise `os.path.basename(file_path).replace("-terms.json", "")`. -/
def bookKey (file_path : List Char) (epub_path : Option (List Char)) : List Char :=
  match epub_path with
  | some p => replaceAll (lowerStr (replaceAll (basename p) ".epub".toList [])) ['_'] ['-']
  | none => replaceAll (basename file_path) "-terms.json".toList []

/-! ### `fix_variable_lookbehind` (lines 6-46) -/

/-- Python `content.split("|")`, worker. -/
def splitOnBarGo (cur : List Char) : List Char → List (List Char)
  | [] => [cur.reverse]
  | c :: rest =>
    if c = '|' then cur.reverse :: splitOnBarGo [] rest
    else splitOnBarGo (c :: cur) rest

/-- Python `content.split("|")`. -/
def splitOnBar (s : List Char) : List (List Char) := splitOnBarGo [] s

/-- Python `"|".join(parts)`. -/
def joinBar : List (List Char) → List Char
  | [] => []
  | [x] => x
  | x :: rest => x ++ '|' :: joinBar rest

/-- `re.search(r"\(\?<=([^)]*)\)", pattern)`: find the leftmost
occurrence of `(?<=` that is followed by a closing parenthesis; return
the lookbehind body (the characters before the first `)` after the
`(?<=`) and the remainder of the pattern after that `)`. -/
def lbSearch : List Char → Option (List Char × List Char)
  | [] => none
  | c :: rest =>
    if ['(', '?', '<', '='].isPrefixOf (c :: rest) then
      match (List.drop 4 (c :: rest)).findIdx? (fun d => d == ')') with
      | some j =>
        some (List.take j (List.drop 4 (c :: rest)),
          List.drop (j + 1) (List.drop 4 (c :: rest)))
      | none => lbSearch rest
    else lbSearch rest

/-- `fix_variable_lookbehind` (lines 6-46): if the pattern has a
lookbehind whose body is an alternation, split the body on `|`, strip
each alternative, and emit one branch per alternative — `\b` becomes a
plain `\b` before the post-lookbehind part, anything else keeps a
lookbehind — joined with `|`.  Text before the lookbehind is not used.
Patterns without such a lookbehind are returned unchanged. -/
def fix_variable_lookbehind (pattern : List Char) : List Char :=
  match lbSearch pattern with
  | none => pattern
  | some (content, matchPart) =>
    if content.contains '|' then
      let alts := (splitOnBar content).map stripWs
      let branches := alts.map (fun alt =>
        if alt = ['\\', 'b'] then '\\' :: 'b' :: matchPart
        else '(' :: '?' :: '<' :: '=' :: (alt ++ ')' :: matchPart))
      joinBar branches
    else pattern

/-! ### Regex engine

A reference semantics for the fragment of Python `re` that the source
uses: literal characters, `\d`, `\b`, groups, alternation and
(variable-width) lookbehind.  `matchEnds` returns the candidate end
positions of a match starting at `p`, in backtracking priority order,
so the head is the end the engine reports. -/

inductive RE where
  | eps
  | char (c : Char)
  | digit
  | wordB
  | look (r : RE)
  | seq (a b : RE)
  | alt (a b : RE)
  | group (r : RE)
deriving DecidableEq, Repr

/-- Character comparison, with case folding when `re.IGNORECASE` is set. -/
def eqChar (ci : Bool) (a b : Char) : Bool :=
  if ci then lowerChar a == lowerChar b else a == b

/-- The `\b` assertion at position `p`: a word character on exactly one
side (out of range counts as non-word). -/
def wordBoundaryAt (text : List Char) (p : Nat) : Bool :=
  let before :=
    match p with
    | 0 => false
    | q + 1 => match text[q]? with | some c => isWordChar c | none => false
  let afterB := match text[p]? with | some c => isWordChar c | none => false
  before != afterB

/-- All candidate end positions of a match of `r` starting at `p`, in
backtracking priority order.  A lookbehind matches (zero-width) when
its body can match some span ending exactly at `p`. -/
def matchEnds (ci : Bool) (text : List Char) : RE → Nat → List Nat
  | .eps, p => [p]
  | .char c, p =>
    match text[p]? with
    | some d => if eqChar ci c d then [p + 1] else []
    | none => []
  | .digit, p =>
    match text[p]? with
    | some d => if isDigitChar d then [p + 1] else []
    | none => []
  | .wordB, p => if wordBoundaryAt text p then [p] else []
  | .look r, p =>
    if (List.range (p + 1)).any (fun s => (matchEnds ci text r s).contains p) then [p]
    else []
  | .seq a b, p => (matchEnds ci text a p).flatMap (fun q => matchEnds ci text b q)
  | .alt a b, p => matchEnds ci text a p ++ matchEnds ci text b p
  | .group r, p => matchEnds ci text r p

/-- `pattern.finditer(text)`: scan positions left to right, report the
first (highest-priority) match at each position, resume after its end
(or one further for a zero-width match). -/
def finditerGo (ci : Bool) (r : RE) (text : List Char) : Nat → Nat → List (Nat × Nat)
  | 0, _ => []
  | fuel + 1, pos =>
    if pos > text.length then []
    else
      match (matchEnds ci text r pos).head? with
      | some e => (pos, e) :: finditerGo ci r text fuel (if pos < e then e else pos + 1)
      | none => finditerGo ci r text fuel (pos + 1)

def finditer (ci : Bool) (r : RE) (text : List Char) : List (Nat × Nat) :=
  finditerGo ci r text (text.length + 2) 0

/-! ### Pattern parsing (`re.compile` for the supported fragment) -/

mutual

def parseAlt : Nat → List Char → Option (RE × List Char)
  | 0, _ => none
  | fuel + 1, s =>
    match parseConcat fuel s with
    | none => none
    | some (r, s1) =>
      match s1 with
      | '|' :: rest =>
        match parseAlt fuel rest with
        | none => none
        | some (r2, s2) => some (.alt r r2, s2)
      | _ => some (r, s1)

def parseConcat : Nat → List Char → Option (RE × List Char)
  | 0, _ => none
  | fuel + 1, s =>
    match s with
    | [] => some (.eps, [])
    | '|' :: _ => some (.eps, s)
    | ')' :: _ => some (.eps, s)
    | _ =>
      match parseAtom fuel s with
      | none => none
      | some (r, s1) =>
        match parseConcat fuel s1 with
        | none => none
        | some (r2, s2) => some (.seq r r2, s2)

def parseAtom : Nat → List Char → Option (RE × List Char)
  | 0, _ => none
  | fuel + 1, s =>
    match s with
    | [] => none
    | '\\' :: c :: rest =>
      if c = 'd' then some (.digit, rest)
      else if c = 'b' then some (.wordB, rest)
      else if isWordChar c then none
      else some (.char c, rest)
    | '(' :: '?' :: rest =>
      match rest with
      | '<' :: '=' :: rest2 =>
        match parseAlt fuel rest2 with
        | none => none
        | some (r, s1) =>
          match s1 with
          | ')' :: rest3 => some (.look r, rest3)
          | _ => none
      | _ => none
    | '(' :: rest =>
      match parseAlt fuel rest with
      | none => none
      | some (r, s1) =>
        match s1 with
        | ')' :: rest3 => some (.group r, rest3)
        | _ => none
    | c :: rest =>
      if c = '.' ∨ c = '*' ∨ c = '+' ∨ c = '?' ∨ c = '[' ∨ c = ']' ∨ c = '\x7b' ∨
          c = '\x7d' ∨ c = '^' ∨ c = '$' ∨ c = '\\' ∨ c = '|' ∨ c = '(' ∨ c = ')' then none
      else some (.char c, rest)

end

/-- Parse a whole pattern; unsupported constructs give `none`
(modelling a compile failure for the fragment outside this model). -/
def parseRE (s : List Char) : Option RE :=
  match parseAlt (3 * s.length + 10) s with
  | some (r, []) => some r
  | _ => none

/-- The spans `finditer` reports for a pattern string on a text. -/
def reSpans (ci : Bool) (pattern text : List Char) : Option (List (Nat × Nat)) :=
  (parseRE pattern).map (fun r => finditer ci r text)

/-! ### `apply_search_replace` (lines 105-215) -/

/-- A validated rule (`term` dictionary); `wholeWord` carries the
`term.get("wholeWord", False)` default. -/
structure Term where
  original : List Char
  replacement : List Char
  caseSensitive : Bool
  isRegex : Bool
  wholeWord : Bool
deriving DecidableEq, Repr

/-- Python dict lookup on an insertion-ordered association list. -/
def dictGet (k : List Char) : List (List Char × List Char) → Option (List Char)
  | [] => none
  | (k2, v) :: rest => if k = k2 then some v else dictGet k rest

/-- Python `d[k] = v`: overwrite in place, or append a new entry. -/
def dictInsert (k v : List Char) : List (List Char × List Char) → List (List Char × List Char)
  | [] => [(k, v)]
  | (k2, v2) :: rest =>
    if k = k2 then (k, v) :: rest else (k2, v2) :: dictInsert k v rest

/-- The five buckets of the categorization loop (lines 120-148).
`regex_terms` keeps `(fixed pattern, ignore-case flag, replacement)`. -/
structure Buckets where
  simple_cs_part : List (List Char × List Char)
  simple_cs_whole : List (List Char × List Char)
  simple_ci_part : List (List Char × List Char)
  simple_ci_whole : List (List Char × List Char)
  regex_terms : List (List Char × Bool × List Char)
deriving Repr

def emptyBuckets : Buckets := ⟨[], [], [], [], []⟩

/-- One iteration of the categorization loop (lines 126-148): regex
terms get `fix_variable_lookbehind` applied and are queued for
compilation; literal terms go to the bucket dict for their
`(caseSensitive, wholeWord)` pair under the (case-folded when
insensitive) original as key. -/
def bucketStep (b : Buckets) (t : Term) : Buckets :=
  if t.isRegex then
    { b with regex_terms :=
        b.regex_terms ++ [(fix_variable_lookbehind t.original, !t.caseSensitive, t.replacement)] }
  else
    let key := if t.caseSensitive then t.original else lowerStr t.original
    if t.caseSensitive then
      if t.wholeWord then
        { b with simple_cs_whole := dictInsert key t.replacement b.simple_cs_whole }
      else
        { b with simple_cs_part := dictInsert key t.replacement b.simple_cs_part }
    else
      if t.wholeWord then
        { b with simple_ci_whole := dictInsert key t.replacement b.simple_ci_whole }
      else
        { b with simple_ci_part := dictInsert key t.replacement b.simple_ci_part }

def partitionTerms (terms : List Term) : Buckets :=
  terms.foldl bucketStep emptyBuckets

/-- A compiled matcher: a user regex with one replacement, or a grouped
literal matcher with a replacement map. -/
inductive Compiled where
  | regex (r : RE) (ci : Bool) (repl : List Char)
  | simple (r : RE) (ci : Bool) (map : List (List Char × List Char))
deriving Repr

/-- A literal as a regex (the effect of `re.escape` plus compilation). -/
def litSeq (k : List Char) : RE := k.foldr (fun c r => .seq (.char c) r) .eps

/-- One alternative of a combined literal pattern; whole-word wraps the
literal in `\b` (line 159). -/
def litPattern (whole : Bool) (k : List Char) : RE :=
  if whole then .seq .wordB (.seq (litSeq k) .wordB) else litSeq k

/-- `sorted(map_dict.keys(), key=len, reverse=True)` (line 154): the
bucket keys in descending length order, stable. -/
def sortedLiteralKeys (m : List (List Char × List Char)) : List (List Char) :=
  List.insertionSort (fun a b => b.length ≤ a.length) (m.map Prod.fst)

/-- `"|".join(patterns)` at the semantic level: alternation tried left
to right. -/
def joinAltRE : List RE → RE
  | [] => .eps
  | [r] => r
  | r :: rest => .alt r (joinAltRE rest)

/-- `add_simple_group` (lines 152-170): skip an empty bucket, else
append one combined matcher whose alternatives are the bucket keys in
descending length order, each wrapped in `\b` when whole-word. -/
def add_simple_group (acc : List Compiled) (m : List (List Char × List Char))
    (whole ci : Bool) : List Compiled :=
  if m = [] then acc
  else acc ++ [.simple (joinAltRE ((sortedLiteralKeys m).map (litPattern whole))) ci m]

/-- Compile the queued regex terms (`re.compile(fixed_orig, flags)`,
line 136); a pattern outside the supported fragment fails. -/
def compileRegexes : List (List Char × Bool × List Char) → Option (List Compiled)
  | [] => some []
  | (p, ci, repl) :: rest =>
    match parseRE p with
    | none => none
    | some r =>
      match compileRegexes rest with
      | none => none
      | some cs => some (.regex r ci repl :: cs)

/-- Lines 151-175: compiled regex terms first, then the four literal
groups in source order (cs-partial, cs-whole, ci-partial, ci-whole). -/
def compileAll (bk : Buckets) : Option (List Compiled) :=
  match compileRegexes bk.regex_terms with
  | none => none
  | some regs =>
    some (add_simple_group
      (add_simple_group
        (add_simple_group
          (add_simple_group regs bk.simple_cs_part false false)
          bk.simple_cs_whole true false)
        bk.simple_ci_part false true)
      bk.simple_ci_whole true true)

/-- `text[s:e]`. -/
def subList (text : List Char) (s e : Nat) : List Char :=
  (text.drop s).take (e - s)

/-- Lines 177-191: run one compiled matcher over the text, skip
zero-length matches, and resolve grouped literals through the
replacement map (case-folded key when case-insensitive); a failed
lookup drops the match. -/
def collectOne (text : List Char) : Compiled → List SRMatch
  | .regex r ci repl =>
    ((finditer ci r text).filter (fun se => se.1 != se.2)).map
      (fun se => ⟨se.1, se.2, repl⟩)
  | .simple r ci m =>
    ((finditer ci r text).filter (fun se => se.1 != se.2)).filterMap (fun se =>
      let matched := subList text se.1 se.2
      let key := if ci then lowerStr matched else matched
      (dictGet key m).map (fun repl => (⟨se.1, se.2, repl⟩ : SRMatch)))

def collectMatches (text : List Char) (cs : List Compiled) : List SRMatch :=
  cs.flatMap (collectOne text)

/-- `apply_search_replace` (lines 105-215): categorize and compile the
terms, collect all candidate matches, resolve conflicts, splice the
winners in.  `none` models a raised `SearchReplaceError` (the only
failure in this model is a pattern outside the supported fragment). -/
def apply_search_replace (text : List Char) (terms : List Term) : Option (List Char) :=
  (compileAll (partitionTerms terms)).map (fun cs =>
    rewriteMatches text (resolveConflicts (collectMatches text cs)))

/-! ### Rule loading (`load_search_replace_terms`, lines 50-102, and
`validate_search_replace_term`, validators lines 100-131) -/

/-- A parsed JSON value (`json.load` output). -/
inductive JVal where
  | str (s : List Char)
  | boolean (b : Bool)
  | num (n : Int)
  | null
  | arr (l : List JVal)
  | obj (l : List (List Char × JVal))

/-- Python dict lookup for JSON objects. -/
def lookupJ (k : List Char) : List (List Char × JVal) → Option JVal
  | [] => none
  | (k2, v) :: rest => if k = k2 then some v else lookupJ k rest

/-- Python truthiness of a JSON value. -/
def truthy : JVal → Bool
  | .boolean b => b
  | .str s => !s.isEmpty
  | .num n => n != 0
  | .null => false
  | .arr l => !l.isEmpty
  | .obj l => !l.isEmpty

/-- `validate_search_replace_term` (validators lines 100-131): all of
`original`, `replacement`, `caseSensitive`, `isRegex` must be present
and correctly typed; optional `id` must be a string and optional
`wholeWord` a boolean.  A non-object rule fails (a raised `TypeError`
is wrapped into the load error by the source). -/
def validate_search_replace_term (t : JVal) : Except (List Char) Term :=
  match t with
  | .obj f =>
    if (lookupJ "original".toList f).isNone then
      .error "Missing required key: original".toList
    else if (lookupJ "replacement".toList f).isNone then
      .error "Missing required key: replacement".toList
    else if (lookupJ "caseSensitive".toList f).isNone then
      .error "Missing required key: caseSensitive".toList
    else if (lookupJ "isRegex".toList f).isNone then
      .error "Missing required key: isRegex".toList
    else
      match lookupJ "id".toList f with
      | some (.str _) | none =>
        match lookupJ "original".toList f, lookupJ "replacement".toList f,
            lookupJ "caseSensitive".toList f, lookupJ "isRegex".toList f with
        | some (.str o), some (.str r), some (.boolean cs), some (.boolean rx) =>
          match lookupJ "wholeWord".toList f with
          | none => .ok ⟨o, r, cs, rx, false⟩
          | some (.boolean w) => .ok ⟨o, r, cs, rx, w⟩
          | some _ => .error "Key wholeWord must be a boolean".toList
        | some (.str _), some (.str _), some (.boolean _), some _ =>
          .error "Key isRegex must be a boolean".toList
        | some (.str _), some (.str _), some _, some _ =>
          .error "Key caseSensitive must be a boolean".toList
        | some (.str _), some _, some _, some _ =>
          .error "Key replacement must be a string".toList
        | _, _, _, _ =>
          .error "Key original must be a string".toList
      | some _ => .error "Key id must be a string".toList
  | _ => .error "Rule is not an object".toList

/-- The validation loop of lines 92-95: validate every term, failing
on the first invalid one; no partial list is ever produced. -/
def validateTerms : List JVal → Except (List Char) (List Term)
  | [] => .ok []
  | t :: rest =>
    match validate_search_replace_term t with
    | .error e => .error e
    | .ok v =>
      match validateTerms rest with
      | .error e => .error e
      | .ok vs => .ok (v :: vs)

/-- `data["settings"].get(game_name, {}).get("isDisabled", False)`
(line 84), with a non-object raising (modelled as an error). -/
def settingsDisabled (settings : JVal) (game : List Char) : Except (List Char) Bool :=
  match settings with
  | .obj s =>
    match lookupJ game s with
    | none => .ok false
    | some (.obj g) => .ok (truthy ((lookupJ "isDisabled".toList g).getD .null))
    | some _ => .error "settings entry is not an object".toList
  | _ => .error "settings is not an object".toList

/-- `load_search_replace_terms` (lines 50-102), after file reading and
JSON parsing: an array is the old format and is validated directly; an
object must have `formatVersion`, `settings` and `terms`, the book-key
must resolve inside `terms` and not be disabled in `settings`, and the
resolved rule list is validated.  Every failure is an error; no
partial rule list is returned. -/
def load_search_replace_terms (data : JVal) (file_path : List Char)
    (epub_path : Option (List Char)) : Except (List Char) (List Term) :=
  match data with
  | .arr ts => validateTerms ts
  | .obj fields =>
    if (lookupJ "formatVersion".toList fields).isNone ∨
        (lookupJ "settings".toList fields).isNone ∨
        (lookupJ "terms".toList fields).isNone then
      .error "New format JSON must contain formatVersion, settings, and terms.".toList
    else
      match lookupJ "terms".toList fields with
      | some (.obj tm) =>
        match lookupJ (bookKey file_path epub_path) tm with
        | none => .error "No terms found for game.".toList
        | some tv =>
          match settingsDisabled ((lookupJ "settings".toList fields).getD .null)
              (bookKey file_path epub_path) with
          | .error e => .error e
          | .ok true => .error "Game is disabled.".toList
          | .ok false =>
            match tv with
            | .arr ts => validateTerms ts
            | _ => .error "Terms for game must be an array.".toList
      | some _ => .error "terms is not an object".toList
      | none => .error "terms is missing".toList
  | _ => .error "JSON must be an array (old format) or object (new format).".toList

/-- The parse of `(cr)\b` (shared tail of the flagship pattern and of
both branches of its normalization). -/
def crTail : RE :=
  .seq (.group (.seq (.char 'c') (.seq (.char 'r') .eps))) (.seq .wordB .eps)

/-- The parse of `\d` as a one-atom concatenation. -/
def digitEps : RE := .seq .digit .eps

/-- The first offset a tail of accepted matches can touch: the start of
its first match, or the text length when there is none (proof helper). -/
def headBound (text : List Char) : List SRMatch → Nat
  | [] => text.length
  | r :: _ => r.start

/-! ### Theorems: conflict resolution (ConflictResolver) -/

theorem selectNonOverlapping_subset (e : Int) (l : List SRMatch) :
    ∀ m ∈ selectNonOverlapping e l, m ∈ l := by
  induction l generalizing e with
  | nil => intro m h; simp [selectNonOverlapping] at h
  | cons x rest ih =>
    intro m h
    by_cases hc : e ≤ (x.start : Int)
    · rw [selectNonOverlapping, if_pos hc] at h
      rcases List.mem_cons.mp h with h | h
      · exact h ▸ List.mem_cons_self x rest
      · exact List.mem_cons_of_mem _ (ih _ _ h)
    · rw [selectNonOverlapping, if_neg hc] at h
      exact List.mem_cons_of_mem _ (ih _ _ h)

theorem selectNonOverlapping_start_ge (e : Int) (l : List SRMatch)
    (hv : ∀ m ∈ l, m.start < m.stop) :
    ∀ m ∈ selectNonOverlapping e l, e ≤ (m.start : Int) := by
  induction l generalizing e with
  | nil => intro m h; simp [selectNonOverlapping] at h
  | cons x rest ih =>
    intro m h
    have hvr : ∀ m ∈ rest, m.start < m.stop :=
      fun m hm => hv m (List.mem_cons_of_mem _ hm)
    by_cases hc : e ≤ (x.start : Int)
    · rw [selectNonOverlapping, if_pos hc] at h
      rcases List.mem_cons.mp h with h | h
      · exact h ▸ hc
      · have hx : x.start < x.stop := hv x (List.mem_cons_self x rest)
        have := ih _ hvr m h
        have : (x.stop : Int) ≤ (m.start : Int) := this
        have hxx : (x.start : Int) < (x.stop : Int) := by exact_mod_cast hx
        linarith
    · rw [selectNonOverlapping, if_neg hc] at h
      exact ih _ hvr m h

theorem selectNonOverlapping_pairwise (e : Int) (l : List SRMatch)
    (hv : ∀ m ∈ l, m.start < m.stop) :
    (selectNonOverlapping e l).Pairwise (fun a b => a.stop ≤ b.start) := by
  induction l generalizing e with
  | nil => simp [selectNonOverlapping]
  | cons x rest ih =>
    have hvr : ∀ m ∈ rest, m.start < m.stop :=
      fun m hm => hv m (List.mem_cons_of_mem _ hm)
    by_cases hc : e ≤ (x.start : Int)
    · rw [selectNonOverlapping, if_pos hc]
      refine List.Pairwise.cons ?_ (ih _ hvr)
      intro b hb
      have := selectNonOverlapping_start_ge (x.stop : Int) rest hvr b hb
      exact_mod_cast this
    · rw [selectNonOverlapping, if_neg hc]
      exact ih _ hvr

/-- C3: the set accepted by the ConflictResolver is pairwise
non-overlapping: for any two accepted matches taken in the order they
are accepted (which is start order), the end of the first is at most
the start of the second. -/
theorem resolveConflicts_pairwise_nonoverlap (l : List SRMatch)
    (hv : ∀ m ∈ l, m.start < m.stop) :
    (resolveConflicts l).Pairwise (fun a b => a.stop ≤ b.start) := by
  unfold resolveConflicts
  exact selectNonOverlapping_pairwise _ _
    (fun m hm => hv m ((List.perm_insertionSort keyLe l).subset hm))

theorem resolveConflicts_pairwise_nonoverlap_witness :
    (resolveConflicts [⟨0, 3, ['a']⟩, ⟨1, 4, []⟩, ⟨3, 6, ['b']⟩]).Pairwise
      (fun a b => a.stop ≤ b.start) :=
  resolveConflicts_pairwise_nonoverlap _ (by decide)

theorem orderedInsert_congr {α : Type} (r s : α → α → Prop)
    [DecidableRel r] [DecidableRel s] (a : α) :
    ∀ l : List α, (∀ b ∈ l, (r a b ↔ s a b)) →
      List.orderedInsert r a l = List.orderedInsert s a l := by
  intro l
  induction l with
  | nil => intro _; rfl
  | cons b t ih =>
    intro h
    by_cases hr : r a b
    · rw [List.orderedInsert, List.orderedInsert, if_pos hr,
        if_pos ((h b (List.mem_cons_self b t)).mp hr)]
    · rw [List.orderedInsert, List.orderedInsert, if_neg hr,
        if_neg (fun hs => hr ((h b (List.mem_cons_self b t)).mpr hs)),
        ih (fun b' hb' => h b' (List.mem_cons_of_mem _ hb'))]

theorem insertionSort_congr {α : Type} (r s : α → α → Prop)
    [DecidableRel r] [DecidableRel s] :
    ∀ l : List α, (∀ a ∈ l, ∀ b ∈ l, (r a b ↔ s a b)) →
      List.insertionSort r l = List.insertionSort s l := by
  intro l
  induction l with
  | nil => intro _; rfl
  | cons a t ih =>
    intro h
    rw [List.insertionSort, List.insertionSort,
      ih (fun x hx y hy => h x (List.mem_cons_of_mem _ hx) y (List.mem_cons_of_mem _ hy))]
    refine orderedInsert_congr r s a _ (fun b hb => ?_)
    have hbt : b ∈ t := (List.perm_insertionSort s t).subset hb
    exact h a (List.mem_cons_self a t) b (List.mem_cons_of_mem _ hbt)

theorem keyLe_iff_specLe {a b : SRMatch}
    (ha : a.start < a.stop) (hb : b.start < b.stop) : keyLe a b ↔ specLe a b := by
  unfold keyLe specLe
  omega

/-- C1: the ConflictResolver (sort by `(start, -end)`, then one greedy
scan with `last_end = -1`, accepting a match exactly when its start is
at least `last_end`) computes exactly what the specification describes
(sort by start ascending then span-length descending, then the same
scan); in particular, of the overlapping candidates `[0,5)` and
`[2,8)` only `[0,5)` is accepted. -/
theorem resolveConflicts_eq_spec (l : List SRMatch)
    (hv : ∀ m ∈ l, m.start < m.stop) :
    resolveConflicts l = resolveConflictsSpec l := by
  unfold resolveConflicts resolveConflictsSpec
  rw [insertionSort_congr keyLe specLe l
    (fun a ha b hb => keyLe_iff_specLe (hv a ha) (hv b hb))]

theorem resolveConflicts_eq_spec_witness :
    resolveConflicts [⟨0, 5, []⟩, ⟨2, 8, []⟩] =
        resolveConflictsSpec [⟨0, 5, []⟩, ⟨2, 8, []⟩] ∧
      resolveConflicts [⟨0, 5, []⟩, ⟨2, 8, []⟩] = [⟨0, 5, []⟩] :=
  ⟨resolveConflicts_eq_spec _ (by decide), by decide⟩

/-! ### Theorems: the Rewriter -/

theorem orderedInsert_eq_append {α : Type} (r : α → α → Prop) [DecidableRel r] (a : α) :
    ∀ l : List α, (∀ b ∈ l, ¬ r a b) → List.orderedInsert r a l = l ++ [a] := by
  intro l
  induction l with
  | nil => intro _; rfl
  | cons b t ih =>
    intro h
    rw [List.orderedInsert, if_neg (h b (List.mem_cons_self b t)),
      ih (fun b' hb' => h b' (List.mem_cons_of_mem _ hb')), List.cons_append]

theorem pairwise_startLt (l : List SRMatch) (hv : ∀ m ∈ l, m.start < m.stop)
    (hp : l.Pairwise fun a b => a.stop ≤ b.start) :
    l.Pairwise fun a b => a.start < b.start := by
  induction l with
  | nil => simp
  | cons x t ih =>
    rcases List.pairwise_cons.mp hp with ⟨hx, ht⟩
    refine List.pairwise_cons.mpr ⟨fun b hb => ?_,
      ih (fun m hm => hv m (List.mem_cons_of_mem _ hm)) ht⟩
    have h1 := hv x (List.mem_cons_self x t)
    have h2 := hx b hb
    omega

theorem sortDescStart_eq_reverse (l : List SRMatch)
    (h : l.Pairwise fun a b => a.start < b.start) :
    List.insertionSort descStart l = l.reverse := by
  induction l with
  | nil => rfl
  | cons x t ih =>
    rcases List.pairwise_cons.mp h with ⟨hx, ht⟩
    rw [List.insertionSort, ih ht, List.reverse_cons]
    refine orderedInsert_eq_append descStart x _ (fun b hb => ?_)
    have hbt : b ∈ t := List.mem_reverse.mp hb
    have := hx b hbt
    unfold descStart
    omega

theorem rewriteSpec_take (text : List Char) (rest : List SRMatch) (n : Nat)
    (hv : ∀ m ∈ rest, m.start < m.stop ∧ m.stop ≤ text.length)
    (hn : n ≤ headBound text rest) :
    (rewriteSpec text 0 rest).take n = text.take n := by
  cases rest with
  | nil =>
    rw [rewriteSpec, List.drop_zero]
  | cons r rest2 =>
    rw [headBound] at hn
    rw [rewriteSpec, List.drop_zero, Nat.sub_zero]
    have h1 : r.start ≤ text.length := by
      have := hv r (List.mem_cons_self r rest2); omega
    have hlen : n ≤ (text.take r.start).length := by
      rw [List.length_take]; omega
    rw [List.append_assoc, List.take_append_of_le_length hlen, List.take_take,
      Nat.min_eq_left hn]

theorem rewriteSpec_drop (text : List Char) (rest : List SRMatch) (e : Nat)
    (hv : ∀ m ∈ rest, m.start < m.stop ∧ m.stop ≤ text.length)
    (he : e ≤ headBound text rest) :
    (rewriteSpec text 0 rest).drop e = rewriteSpec text e rest := by
  cases rest with
  | nil =>
    rw [rewriteSpec, rewriteSpec, List.drop_zero]
  | cons r rest2 =>
    rw [headBound] at he
    rw [rewriteSpec, rewriteSpec, List.drop_zero, Nat.sub_zero]
    have h1 : r.start ≤ text.length := by
      have := hv r (List.mem_cons_self r rest2); omega
    have hlen : e ≤ (text.take r.start).length := by
      rw [List.length_take]; omega
    rw [List.append_assoc, List.drop_append_of_le_length hlen, List.drop_take,
      ← List.append_assoc]

theorem foldr_spliceOne_eq_rewriteSpec (text : List Char) :
    ∀ l : List SRMatch, (∀ m ∈ l, m.start < m.stop ∧ m.stop ≤ text.length) →
      (l.Pairwise fun a b => a.stop ≤ b.start) →
      l.foldr (fun r acc => spliceOne acc r) text = rewriteSpec text 0 l := by
  intro l
  induction l with
  | nil =>
    intro _ _
    rw [List.foldr_nil, rewriteSpec, List.drop_zero]
  | cons r rest ih =>
    intro hv hp
    rcases List.pairwise_cons.mp hp with ⟨hr, hrest⟩
    have hvr : ∀ m ∈ rest, m.start < m.stop ∧ m.stop ≤ text.length :=
      fun m hm => hv m (List.mem_cons_of_mem _ hm)
    have hvh := hv r (List.mem_cons_self r rest)
    have hb2 : r.stop ≤ headBound text rest := by
      cases rest with
      | nil => rw [headBound]; omega
      | cons q t => rw [headBound]; exact hr q (List.mem_cons_self q t)
    have hb1 : r.start ≤ headBound text rest := by omega
    rw [List.foldr_cons, ih hvr hrest]
    show spliceOne (rewriteSpec text 0 rest) r = _
    rw [spliceOne, rewriteSpec_take text rest r.start hvr hb1,
      rewriteSpec_drop text rest r.stop hvr hb2, rewriteSpec, List.drop_zero, Nat.sub_zero]

/-- C2: for every text and every non-overlapping accepted match set (in
start order, ends before starts of later matches, spans inside the
text), the Rewriter output equals the original text with each accepted
span `[start, stop)` replaced by its replacement and every character
outside accepted spans unchanged (the construction `rewriteSpec`);
the Rewriter achieves this by splicing in descending start order. -/
theorem rewriteMatches_eq_rewriteSpec (text : List Char) (winning : List SRMatch)
    (hp : winning.Pairwise fun a b => a.stop ≤ b.start)
    (hv : ∀ m ∈ winning, m.start < m.stop ∧ m.stop ≤ text.length) :
    rewriteMatches text winning = rewriteSpec text 0 winning := by
  unfold rewriteMatches
  rw [sortDescStart_eq_reverse winning (pairwise_startLt winning (fun m hm => (hv m hm).1) hp),
    List.foldl_reverse]
  exact foldr_spliceOne_eq_rewriteSpec text winning hv hp

theorem rewriteMatches_eq_rewriteSpec_witness :
    rewriteMatches "abcdef".toList [⟨1, 3, ['X', 'Y', 'Z']⟩, ⟨4, 5, ['W']⟩] =
      rewriteSpec "abcdef".toList 0 [⟨1, 3, ['X', 'Y', 'Z']⟩, ⟨4, 5, ['W']⟩] :=
  rewriteMatches_eq_rewriteSpec _ _ (by decide) (by decide)

/-! ### Theorems: concrete end-to-end behaviour -/

/-- C5: on `"The cr earned was 10 cr."` with the regex rule
`(?<=\d|\b)(cr)\b → credits` (case-sensitive), the normalized pattern
matches both occurrences of `cr` (spans `[4,6)` and `[21,23)`) and the
pipeline returns `"The credits earned was 10 credits."`. -/
theorem end_to_end_credits :
    reSpans false (fix_variable_lookbehind "(?<=\\d|\\b)(cr)\\b".toList)
        "The cr earned was 10 cr.".toList = some [(4, 6), (21, 23)] ∧
      apply_search_replace "The cr earned was 10 cr.".toList
          [⟨"(?<=\\d|\\b)(cr)\\b".toList, "credits".toList, true, true, false⟩] =
        some "The credits earned was 10 credits.".toList :=
  ⟨rfl, rfl⟩

/-- C9: literal rule `Cat → Dog`: case-sensitively it leaves `"cat"`
unchanged; case-insensitively it rewrites `"cat"`, `"CAT"` and `"Cat"`
alike, and the inserted text is always `"Dog"` with its own casing. -/
theorem case_sensitivity_literal :
    apply_search_replace "cat".toList
        [⟨"Cat".toList, "Dog".toList, true, false, false⟩] = some "cat".toList ∧
      apply_search_replace "cat".toList
          [⟨"Cat".toList, "Dog".toList, false, false, false⟩] = some "Dog".toList ∧
        apply_search_replace "CAT".toList
            [⟨"Cat".toList, "Dog".toList, false, false, false⟩] = some "Dog".toList ∧
          apply_search_replace "Cat".toList
              [⟨"Cat".toList, "Dog".toList, false, false, false⟩] = some "Dog".toList :=
  ⟨rfl, rfl, rfl, rfl⟩

/-- C6: the combined literal pattern of a bucket lists its literals in
descending length order, and with rules `cat → X` and `cats → Y`
(non-whole-word, both case-sensitive) rewriting `"cats"` yields `"Y"`,
not `"Xs"`. -/
theorem longer_literal_precedence :
    (∀ m : List (List Char × List Char),
        List.Sorted (fun a b => b.length ≤ a.length) (sortedLiteralKeys m)) ∧
      apply_search_replace "cats".toList
          [⟨"cat".toList, "X".toList, true, false, false⟩,
            ⟨"cats".toList, "Y".toList, true, false, false⟩] = some "Y".toList := by
  refine ⟨fun m => ?_, rfl⟩
  haveI : IsTotal (List Char) (fun a b => b.length ≤ a.length) :=
    ⟨fun a b => Nat.le_total b.length a.length⟩
  haveI : IsTrans (List Char) (fun a b => b.length ≤ a.length) :=
    ⟨fun a b c hab hbc => Nat.le_trans hbc hab⟩
  exact List.sorted_insertionSort _ _

/-! ### Theorems: book-key derivation -/

theorem lowerChar_toNat_of_upper {c : Char} (h : 65 ≤ c.toNat ∧ c.toNat ≤ 90) :
    (lowerChar c).toNat = c.toNat + 32 := by
  rw [lowerChar, if_pos h]
  have hv : (c.toNat + 32).isValidChar := Or.inl (by omega)
  rw [Char.ofNat, dif_pos hv]
  simp [Char.ofNatAux, Char.toNat, UInt32.toNat, BitVec.toNat_ofNatLt]

theorem lowerChar_not_upper (c : Char) :
    ¬(65 ≤ (lowerChar c).toNat ∧ (lowerChar c).toNat ≤ 90) := by
  by_cases h : 65 ≤ c.toNat ∧ c.toNat ≤ 90
  · rw [lowerChar_toNat_of_upper h]
    omega
  · rw [lowerChar, if_neg h]
    exact h

theorem mem_replaceAllGo {pat repl : List Char} {c : Char} :
    ∀ (fuel : Nat) (s : List Char), c ∈ replaceAllGo pat repl fuel s → c ∈ repl ∨ c ∈ s := by
  intro fuel
  induction fuel with
  | zero => intro s h; exact Or.inr h
  | succ n ih =>
    intro s h
    match s with
    | [] => simp [replaceAllGo] at h
    | d :: rest =>
      rw [replaceAllGo] at h
      by_cases hp : pat.isPrefixOf (d :: rest)
      · rw [if_pos hp] at h
        rcases List.mem_append.mp h with h | h
        · exact Or.inl h
        · rcases ih _ h with h | h
          · exact Or.inl h
          · exact Or.inr (List.mem_of_mem_drop h)
      · rw [if_neg hp] at h
        rcases List.mem_cons.mp h with h | h
        · exact Or.inr (h ▸ List.mem_cons_self d rest)
        · rcases ih _ h with h | h
          · exact Or.inl h
          · exact Or.inr (List.mem_cons_of_mem _ h)

theorem replaceAllGo_underscore_free {c : Char} :
    ∀ (fuel : Nat) (s : List Char), s.length ≤ fuel →
      c ∈ replaceAllGo ['_'] ['-'] fuel s → c ≠ '_' := by
  intro fuel
  induction fuel with
  | zero =>
    intro s hs h
    have : s = [] := List.eq_nil_of_length_eq_zero (Nat.le_zero.mp hs)
    subst this
    simp [replaceAllGo] at h
  | succ n ih =>
    intro s hs h
    match s with
    | [] => simp [replaceAllGo] at h
    | d :: rest =>
      rw [replaceAllGo] at h
      by_cases hp : List.isPrefixOf ['_'] (d :: rest)
      · rw [if_pos hp] at h
        rcases List.mem_cons.mp h with h | h
        · intro hc; rw [h] at hc; exact absurd hc (by decide)
        · have hlen : (List.drop (List.length ['_']) (d :: rest)).length ≤ n := by
            simp at hs ⊢; omega
          exact ih _ hlen h
      · rw [if_neg hp] at h
        have hd : d ≠ '_' := by
          intro hd
          subst hd
          exact hp (by simp [List.isPrefixOf])
        rcases List.mem_cons.mp h with h | h
        · exact h ▸ hd
        · exact ih _ (by simp at hs ⊢; omega) h

/-- C7 counterexample: with no target name available, the book-key of
the rule document `My_Book-terms.json` is `My_Book` — the `-terms.json`
suffix is stripped but nothing is lower-cased and no separator is
normalized, contradicting the claim that the result is still
lower-cased with separators normalized. -/
theorem bookKey_fallback_not_normalized :
    bookKey "My_Book-terms.json".toList none = "My_Book".toList ∧
      bookKey "My_Book-terms.json".toList none ≠ "my-book".toList :=
  ⟨rfl, by decide⟩

/-- C7 amended: with a target name, the book-key is the target's base
name with every `.epub` occurrence removed, lower-cased and with `_`
replaced by `-` (so it contains no ASCII uppercase letter and no
underscore; e.g. `My_Book.epub` gives `my-book`); with no target name,
the key is the rule document's base name with every `-terms.json`
occurrence removed, with no lower-casing and no separator
normalization (e.g. `My_Book-terms.json` gives `My_Book`). -/
theorem bookKey_derivation (p f : List Char) (c : Char)
    (hc : c ∈ bookKey f (some p)) :
    ¬(65 ≤ c.toNat ∧ c.toNat ≤ 90) ∧ c ≠ '_' := by
  rw [bookKey] at hc
  rw [replaceAll, if_neg (by decide)] at hc
  constructor
  · rcases mem_replaceAllGo _ _ hc with h | h
    · rcases List.mem_singleton.mp h with rfl
      decide
    · rcases List.mem_map.mp h with ⟨d, _, rfl⟩
      exact lowerChar_not_upper d
  · exact replaceAllGo_underscore_free _ _ (Nat.le_refl _) hc

theorem bookKey_derivation_witness :
    ('m' ∈ bookKey "x.json".toList (some "My_Book.epub".toList) ∧
        ¬(65 ≤ 'm'.toNat ∧ 'm'.toNat ≤ 90) ∧ 'm' ≠ '_') ∧
      bookKey "x.json".toList (some "My_Book.epub".toList) = "my-book".toList ∧
        bookKey "My_Book-terms.json".toList none = "My_Book".toList :=
  ⟨⟨by decide,
      bookKey_derivation "My_Book.epub".toList "x.json".toList 'm' (by decide)⟩,
    rfl, rfl⟩

/-! ### Theorems: duplicate literal rules (dict overwrite) -/

theorem dictGet_dictInsert (k k2 v : List Char) :
    ∀ l, dictGet k (dictInsert k2 v l) = if k = k2 then some v else dictGet k l := by
  intro l
  induction l with
  | nil => simp [dictInsert, dictGet]
  | cons p rest ih =>
    obtain ⟨k3, v3⟩ := p
    by_cases h2 : k2 = k3 <;> by_cases hk : k = k3 <;> by_cases hk2 : k = k2 <;>
      simp_all [dictInsert, dictGet]

theorem bucketStep_cs_part (b : Buckets) (t : Term) :
    (bucketStep b t).simple_cs_part =
      if !t.isRegex && t.caseSensitive && !t.wholeWord then
        dictInsert t.original t.replacement b.simple_cs_part
      else b.simple_cs_part := by
  cases hr : t.isRegex <;> cases hc : t.caseSensitive <;> cases hw : t.wholeWord <;>
    simp [bucketStep, hr, hc, hw]

theorem bucketStep_cs_whole (b : Buckets) (t : Term) :
    (bucketStep b t).simple_cs_whole =
      if !t.isRegex && t.caseSensitive && t.wholeWord then
        dictInsert t.original t.replacement b.simple_cs_whole
      else b.simple_cs_whole := by
  cases hr : t.isRegex <;> cases hc : t.caseSensitive <;> cases hw : t.wholeWord <;>
    simp [bucketStep, hr, hc, hw]

theorem bucketStep_ci_part (b : Buckets) (t : Term) :
    (bucketStep b t).simple_ci_part =
      if !t.isRegex && !t.caseSensitive && !t.wholeWord then
        dictInsert (lowerStr t.original) t.replacement b.simple_ci_part
      else b.simple_ci_part := by
  cases hr : t.isRegex <;> cases hc : t.caseSensitive <;> cases hw : t.wholeWord <;>
    simp [bucketStep, hr, hc, hw]

theorem bucketStep_ci_whole (b : Buckets) (t : Term) :
    (bucketStep b t).simple_ci_whole =
      if !t.isRegex && !t.caseSensitive && t.wholeWord then
        dictInsert (lowerStr t.original) t.replacement b.simple_ci_whole
      else b.simple_ci_whole := by
  cases hr : t.isRegex <;> cases hc : t.caseSensitive <;> cases hw : t.wholeWord <;>
    simp [bucketStep, hr, hc, hw]

theorem dictGet_foldl_bucket (proj : Buckets → List (List Char × List Char))
    (pred : Term → Bool) (key : Term → List Char)
    (hstep : ∀ b t, proj (bucketStep b t) =
      if pred t then dictInsert (key t) t.replacement (proj b) else proj b) :
    ∀ (ts : List Term) (b : Buckets) (k : List Char),
      dictGet k (proj (ts.foldl bucketStep b)) =
        match ts.reverse.find? (fun t => pred t && key t == k) with
        | some u => some u.replacement
        | none => dictGet k (proj b) := by
  intro ts
  induction ts with
  | nil => intro b k; rfl
  | cons t ts ih =>
    intro b k
    rw [List.foldl_cons, ih, List.reverse_cons, List.find?_append]
    cases hf : ts.reverse.find? (fun t => pred t && key t == k) with
    | some u => rfl
    | none =>
      show dictGet k (proj (bucketStep b t)) = _
      rw [hstep]
      by_cases hp1 : pred t = true
      · by_cases hp2 : (key t == k) = true
        · have hpk : (pred t && key t == k) = true := by rw [hp1, hp2]; rfl
          have hk : k = key t := (eq_of_beq hp2).symm
          rw [if_pos hp1, dictGet_dictInsert, if_pos hk]
          simp [List.find?, hpk]
        · have hpk : (pred t && key t == k) = false := by
            rw [hp1, Bool.true_and, Bool.eq_false_iff]; exact hp2
          have hk : ¬ k = key t := fun h => hp2 (beq_iff_eq.mpr h.symm)
          rw [if_pos hp1, dictGet_dictInsert, if_neg hk]
          simp [List.find?, hpk]
      · have hp0 : pred t = false := Bool.eq_false_iff.mpr hp1
        have hpk : (pred t && key t == k) = false := by rw [hp0, Bool.false_and]
        rw [if_neg hp1]
        simp [List.find?, hpk]

/-- C10: when several literal rules share the same bucket key (same
original — case-folded for case-insensitive rules — and the same
`caseSensitive`/`wholeWord` flags), the bucket dict maps the key to the
replacement of the LAST such rule in declaration order (the earlier
replacements are overwritten at compile time), and the pipeline applies
that replacement: rules `a → X` then `a → Y` rewrite `"a"` to `"Y"`. -/
theorem literal_duplicate_later_wins :
    (∀ (ts : List Term) (k : List Char),
        dictGet k (partitionTerms ts).simple_cs_part =
            (ts.reverse.find? (fun t =>
              (!t.isRegex && t.caseSensitive && !t.wholeWord) && t.original == k)).map
              (fun t => t.replacement) ∧
          dictGet k (partitionTerms ts).simple_cs_whole =
              (ts.reverse.find? (fun t =>
                (!t.isRegex && t.caseSensitive && t.wholeWord) && t.original == k)).map
                (fun t => t.replacement) ∧
            dictGet k (partitionTerms ts).simple_ci_part =
                (ts.reverse.find? (fun t =>
                  (!t.isRegex && !t.caseSensitive && !t.wholeWord) && lowerStr t.original == k)).map
                  (fun t => t.replacement) ∧
              dictGet k (partitionTerms ts).simple_ci_whole =
                  (ts.reverse.find? (fun t =>
                    (!t.isRegex && !t.caseSensitive && t.wholeWord) && lowerStr t.original == k)).map
                    (fun t => t.replacement)) ∧
      apply_search_replace "a".toList
          [⟨"a".toList, "X".toList, true, false, false⟩,
            ⟨"a".toList, "Y".toList, true, false, false⟩] = some "Y".toList := by
  refine ⟨fun ts k => ⟨?_, ?_, ?_, ?_⟩, rfl⟩
  · rw [partitionTerms,
      dictGet_foldl_bucket (fun b => b.simple_cs_part)
        (fun t => !t.isRegex && t.caseSensitive && !t.wholeWord)
        (fun t => t.original) bucketStep_cs_part ts emptyBuckets k]
    cases ts.reverse.find? _ <;> rfl
  · rw [partitionTerms,
      dictGet_foldl_bucket (fun b => b.simple_cs_whole)
        (fun t => !t.isRegex && t.caseSensitive && t.wholeWord)
        (fun t => t.original) bucketStep_cs_whole ts emptyBuckets k]
    cases ts.reverse.find? _ <;> rfl
  · rw [partitionTerms,
      dictGet_foldl_bucket (fun b => b.simple_ci_part)
        (fun t => !t.isRegex && !t.caseSensitive && !t.wholeWord)
        (fun t => lowerStr t.original) bucketStep_ci_part ts emptyBuckets k]
    cases ts.reverse.find? _ <;> rfl
  · rw [partitionTerms,
      dictGet_foldl_bucket (fun b => b.simple_ci_whole)
        (fun t => !t.isRegex && !t.caseSensitive && t.wholeWord)
        (fun t => lowerStr t.original) bucketStep_ci_whole ts emptyBuckets k]
    cases ts.reverse.find? _ <;> rfl

/-! ### Theorems: lookbehind normalization -/

theorem matchEnds_seq (ci : Bool) (text : List Char) (a b : RE) (p : Nat) :
    matchEnds ci text (.seq a b) p =
      (matchEnds ci text a p).flatMap (fun q => matchEnds ci text b q) := by
  simp only [matchEnds]

theorem matchEnds_alt (ci : Bool) (text : List Char) (a b : RE) (p : Nat) :
    matchEnds ci text (.alt a b) p = matchEnds ci text a p ++ matchEnds ci text b p := by
  simp only [matchEnds]

theorem matchEnds_look (ci : Bool) (text : List Char) (r : RE) (p : Nat) :
    matchEnds ci text (.look r) p =
      if (List.range (p + 1)).any (fun s => (matchEnds ci text r s).contains p) then [p]
      else [] := by
  simp only [matchEnds]

theorem matchEnds_wordB (ci : Bool) (text : List Char) (p : Nat) :
    matchEnds ci text .wordB p = if wordBoundaryAt text p then [p] else [] := by
  simp only [matchEnds]

theorem matchEnds_seq_eps (ci : Bool) (text : List Char) (r : RE) (p : Nat) :
    matchEnds ci text (.seq r .eps) p = matchEnds ci text r p := by
  simp only [matchEnds, List.flatMap_singleton']

theorem matchEnds_wordB_eps (ci : Bool) (text : List Char) (s : Nat) :
    matchEnds ci text (.seq .wordB .eps) s = if wordBoundaryAt text s then [s] else [] := by
  rw [matchEnds_seq_eps, matchEnds_wordB]

theorem contains_iff_mem {l : List Nat} {a : Nat} : l.contains a = true ↔ a ∈ l := by
  simp [List.contains]

/-- The lookbehind condition for an alternation body `D | \b`: some
span ending at `p` matches the body exactly when either some span
ending at `p` matches `D`, or there is a word boundary at `p`. -/
theorem lookAlt_cond_iff (ci : Bool) (text : List Char) (D : RE) (p : Nat) :
    ((List.range (p + 1)).any
        (fun s => (matchEnds ci text (.alt D (.seq .wordB .eps)) s).contains p) = true) ↔
      (((List.range (p + 1)).any (fun s => (matchEnds ci text D s).contains p) = true) ∨
        wordBoundaryAt text p = true) := by
  simp only [List.any_eq_true, List.mem_range]
  constructor
  · rintro ⟨s, hs, hc⟩
    rw [matchEnds_alt, matchEnds_wordB_eps] at hc
    rcases List.mem_append.mp (contains_iff_mem.mp hc) with h | h
    · exact Or.inl ⟨s, hs, contains_iff_mem.mpr h⟩
    · by_cases hw : wordBoundaryAt text s
      · rw [if_pos hw] at h
        rcases List.mem_singleton.mp h with rfl
        exact Or.inr hw
      · rw [if_neg hw] at h
        simp at h
  · rintro (⟨s, hs, hc⟩ | hw)
    · refine ⟨s, hs, ?_⟩
      rw [matchEnds_alt, matchEnds_wordB_eps]
      exact contains_iff_mem.mpr (List.mem_append.mpr (Or.inl (contains_iff_mem.mp hc)))
    · refine ⟨p, Nat.lt_succ_self p, ?_⟩
      rw [matchEnds_alt, matchEnds_wordB_eps, if_pos hw]
      exact contains_iff_mem.mpr (List.mem_append.mpr (Or.inr (List.mem_singleton.mpr rfl)))

/-- The engine reports the same match end at every position for
`(?<=D|\b)K` (variable-width lookbehind semantics) and for its
normalization `(?<=D)K|\bK`. -/
theorem matchEnds_lookAlt_head (ci : Bool) (text : List Char) (D K : RE) (p : Nat) :
    (matchEnds ci text (.seq (.look (.alt D (.seq .wordB .eps))) K) p).head? =
      (matchEnds ci text (.alt (.seq (.look D) K) (.seq .wordB K)) p).head? := by
  rw [matchEnds_alt, matchEnds_seq, matchEnds_seq, matchEnds_seq, matchEnds_look,
    matchEnds_look, matchEnds_wordB]
  by_cases hD : (List.range (p + 1)).any (fun s => (matchEnds ci text D s).contains p) = true
  · have hA := (lookAlt_cond_iff ci text D p).mpr (Or.inl hD)
    rw [if_pos hA, if_pos hD]
    by_cases hw : wordBoundaryAt text p = true
    · rw [if_pos hw]
      cases hK : matchEnds ci text K p <;> simp [hK]
    · rw [if_neg hw]
      simp
  · have hD0 : (List.range (p + 1)).any (fun s => (matchEnds ci text D s).contains p) = false :=
      Bool.eq_false_iff.mpr hD
    by_cases hw : wordBoundaryAt text p = true
    · have hA := (lookAlt_cond_iff ci text D p).mpr (Or.inr hw)
      rw [if_pos hA, if_pos hw, if_neg hD]
      simp
    · have hA : ¬ ((List.range (p + 1)).any
          (fun s => (matchEnds ci text (.alt D (.seq .wordB .eps)) s).contains p) = true) := by
        intro h
        rcases (lookAlt_cond_iff ci text D p).mp h with h | h
        · exact hD h
        · exact hw h
      rw [if_neg hA, if_neg hD, if_neg hw]
      simp

theorem finditerGo_congr (ci : Bool) (text : List Char) (r1 r2 : RE)
    (h : ∀ pos, (matchEnds ci text r1 pos).head? = (matchEnds ci text r2 pos).head?) :
    ∀ fuel pos, finditerGo ci r1 text fuel pos = finditerGo ci r2 text fuel pos := by
  intro fuel
  induction fuel with
  | zero => intro pos; rfl
  | succ n ih =>
    intro pos
    rw [finditerGo, finditerGo]
    by_cases hp : pos > text.length
    · rw [if_pos hp, if_pos hp]
    · rw [if_neg hp, if_neg hp]
      have h2 := h pos
      cases he : (matchEnds ci text r1 pos).head? with
      | none =>
        rw [he] at h2
        rw [← h2]
        exact ih _
      | some e =>
        rw [he] at h2
        rw [← h2]
        exact congrArg (fun l => (pos, e) :: l) (ih _)

/-- The flagship pattern and its normalization report identical spans
on every text: `(?<=\d|\b)(cr)\b` versus `(?<=\d)(cr)\b|\b(cr)\b`. -/
theorem reSpans_fix_flagship (ci : Bool) (text : List Char) :
    reSpans ci (fix_variable_lookbehind "(?<=\\d|\\b)(cr)\\b".toList) text =
      reSpans ci "(?<=\\d|\\b)(cr)\\b".toList text := by
  have hfix : fix_variable_lookbehind "(?<=\\d|\\b)(cr)\\b".toList =
      "(?<=\\d)(cr)\\b|\\b(cr)\\b".toList := rfl
  have h1 : parseRE "(?<=\\d)(cr)\\b|\\b(cr)\\b".toList =
      some (.alt (.seq (.look digitEps) crTail) (.seq .wordB crTail)) := rfl
  have h2 : parseRE "(?<=\\d|\\b)(cr)\\b".toList =
      some (.seq (.look (.alt digitEps (.seq .wordB .eps))) crTail) := rfl
  rw [hfix, reSpans, reSpans, h1, h2]
  simp only [Option.map_some']
  rw [finditer, finditer,
    finditerGo_congr ci text
      (.alt (.seq (.look digitEps) crTail) (.seq .wordB crTail))
      (.seq (.look (.alt digitEps (.seq .wordB .eps))) crTail)
      (fun pos => (matchEnds_lookAlt_head ci text digitEps crTail pos).symm) _ _]

/-- C4 counterexample: the claim fails on the pattern `a(?<=a|b)c` —
the transformation drops the text before the lookbehind, producing
`(?<=a)c|(?<=b)c`, and on the text `"ac"` the original pattern matches
the span `[0,2)` while the rewritten pattern matches `[1,2)`. -/
theorem fix_variable_lookbehind_changes_spans :
    fix_variable_lookbehind "a(?<=a|b)c".toList = "(?<=a)c|(?<=b)c".toList ∧
      reSpans false "a(?<=a|b)c".toList "ac".toList = some [(0, 2)] ∧
        reSpans false (fix_variable_lookbehind "a(?<=a|b)c".toList) "ac".toList =
          some [(1, 2)] :=
  ⟨rfl, rfl, rfl⟩

/-- C4 amended: patterns with no lookbehind, and patterns whose first
lookbehind body has no alternation, are returned unchanged; the
documented normalization `(?<=\d|\b)(cr)\b ↦ (?<=\d)(cr)\b|\b(cr)\b`
matches exactly the same spans of every input text as the original
pattern.  (Full span equivalence for every alternation-lookbehind
pattern does not hold: text before the lookbehind is dropped.) -/
theorem fix_variable_lookbehind_amended :
    (∀ pattern, lbSearch pattern = none → fix_variable_lookbehind pattern = pattern) ∧
      (∀ pattern content rest, lbSearch pattern = some (content, rest) →
          content.contains '|' = false → fix_variable_lookbehind pattern = pattern) ∧
        (∀ ci text,
            reSpans ci (fix_variable_lookbehind "(?<=\\d|\\b)(cr)\\b".toList) text =
              reSpans ci "(?<=\\d|\\b)(cr)\\b".toList text) := by
  refine ⟨fun pattern h => ?_, fun pattern content rest h hc => ?_, reSpans_fix_flagship⟩
  · rw [fix_variable_lookbehind, h]
  · rw [fix_variable_lookbehind, h]
    show (if content.contains '|' = true then _ else pattern) = pattern
    rw [hc]
    simp

theorem fix_variable_lookbehind_amended_witness :
    fix_variable_lookbehind "(?<=x)abc".toList = "(?<=x)abc".toList ∧
      reSpans false (fix_variable_lookbehind "(?<=\\d|\\b)(cr)\\b".toList)
          "7cr and cr".toList =
        reSpans false "(?<=\\d|\\b)(cr)\\b".toList "7cr and cr".toList :=
  ⟨fix_variable_lookbehind_amended.2.1 "(?<=x)abc".toList "x".toList "abc".toList rfl rfl,
    fix_variable_lookbehind_amended.2.2 false "7cr and cr".toList⟩

/-! ### Theorems: rule loading failures -/

theorem validateTerms_error_of_mem :
    ∀ (ts : List JVal) (t : JVal), t ∈ ts →
      (∃ e0, validate_search_replace_term t = .error e0) →
      ∃ e, validateTerms ts = .error e := by
  intro ts
  induction ts with
  | nil => intro t ht _; simp at ht
  | cons u ts ih =>
    intro t ht he
    rw [validateTerms]
    cases hu : validate_search_replace_term u with
    | error e => exact ⟨e, rfl⟩
    | ok v =>
      rcases List.mem_cons.mp ht with rfl | ht2
      · rcases he with ⟨e0, he0⟩
        rw [hu] at he0
        cases he0
      · rcases ih t ht2 he with ⟨e, hee⟩
        rw [hee]
        exact ⟨e, rfl⟩

/-- C8: `load_search_replace_terms` fails — returns an error and never
a partial rule sequence — whenever the structured document lacks one of
`formatVersion`/`settings`/`terms`, whenever the resolved book-key is
absent from `terms` or marked disabled in `settings`, and whenever any
rule in the (old-format or resolved) sequence fails validation, for
instance by missing a required field. -/
theorem load_rules_failure_cases :
    (∀ (fields : List (List Char × JVal)) (fp : List Char) (ep : Option (List Char)),
        ((lookupJ "formatVersion".toList fields).isNone ∨
          (lookupJ "settings".toList fields).isNone ∨
          (lookupJ "terms".toList fields).isNone) →
        ∃ e, load_search_replace_terms (.obj fields) fp ep = .error e) ∧
      (∀ (fields : List (List Char × JVal)) (fp : List Char) (ep : Option (List Char)) tm,
          lookupJ "terms".toList fields = some (.obj tm) →
          lookupJ (bookKey fp ep) tm = none →
          ∃ e, load_search_replace_terms (.obj fields) fp ep = .error e) ∧
        (∀ (fields : List (List Char × JVal)) (fp : List Char) (ep : Option (List Char)),
            settingsDisabled ((lookupJ "settings".toList fields).getD .null)
              (bookKey fp ep) = .ok true →
            ∃ e, load_search_replace_terms (.obj fields) fp ep = .error e) ∧
          (∀ (ts : List JVal) (fp : List Char) (ep : Option (List Char)) t, t ∈ ts →
              (∃ e0, validate_search_replace_term t = .error e0) →
              ∃ e, load_search_replace_terms (.arr ts) fp ep = .error e) ∧
            (∀ (fields : List (List Char × JVal)) tm (fp : List Char)
                (ep : Option (List Char)) (ts : List JVal) t,
                lookupJ "terms".toList fields = some (.obj tm) →
                lookupJ (bookKey fp ep) tm = some (.arr ts) →
                t ∈ ts → (∃ e0, validate_search_replace_term t = .error e0) →
                ∃ e, load_search_replace_terms (.obj fields) fp ep = .error e) ∧
              (∀ f, lookupJ "original".toList f = none →
                  ∃ e, validate_search_replace_term (.obj f) = .error e) := by
  refine ⟨?_, ?_, ?_, ?_, ?_, ?_⟩
  · intro fields fp ep h
    rw [load_search_replace_terms, if_pos h]
    exact ⟨_, rfl⟩
  · intro fields fp ep tm htm hkey
    rw [load_search_replace_terms]
    by_cases hc : ((lookupJ "formatVersion".toList fields).isNone ∨
        (lookupJ "settings".toList fields).isNone ∨
        (lookupJ "terms".toList fields).isNone)
    · rw [if_pos hc]
      exact ⟨_, rfl⟩
    · rw [if_neg hc]
      simp only [htm, hkey]
      exact ⟨_, rfl⟩
  · intro fields fp ep hdis
    rw [load_search_replace_terms]
    by_cases hc : ((lookupJ "formatVersion".toList fields).isNone ∨
        (lookupJ "settings".toList fields).isNone ∨
        (lookupJ "terms".toList fields).isNone)
    · rw [if_pos hc]
      exact ⟨_, rfl⟩
    · rw [if_neg hc]
      cases htm : lookupJ "terms".toList fields with
      | none => simp only [htm]; exact ⟨_, rfl⟩
      | some tv =>
        cases tv with
        | obj tm =>
          simp only [htm]
          cases hkey : lookupJ (bookKey fp ep) tm with
          | none => simp only [hkey]; exact ⟨_, rfl⟩
          | some tv2 =>
            simp only [hkey, hdis]
            exact ⟨_, rfl⟩
        | str s => simp only [htm]; exact ⟨_, rfl⟩
        | boolean b => simp only [htm]; exact ⟨_, rfl⟩
        | num n => simp only [htm]; exact ⟨_, rfl⟩
        | null => simp only [htm]; exact ⟨_, rfl⟩
        | arr l => simp only [htm]; exact ⟨_, rfl⟩
  · intro ts fp ep t ht he
    rw [load_search_replace_terms]
    exact validateTerms_error_of_mem ts t ht he
  · intro fields tm fp ep ts t htm hkey ht he
    rw [load_search_replace_terms]
    by_cases hc : ((lookupJ "formatVersion".toList fields).isNone ∨
        (lookupJ "settings".toList fields).isNone ∨
        (lookupJ "terms".toList fields).isNone)
    · rw [if_pos hc]
      exact ⟨_, rfl⟩
    · rw [if_neg hc]
      simp only [htm, hkey]
      cases hsd : settingsDisabled ((lookupJ "settings".toList fields).getD .null)
          (bookKey fp ep) with
      | error e2 => simp only [hsd]; exact ⟨_, rfl⟩
      | ok bb =>
        cases bb with
        | true => simp only [hsd]; exact ⟨_, rfl⟩
        | false =>
          simp only [hsd]
          exact validateTerms_error_of_mem ts t ht he
  · intro f hmiss
    rw [validate_search_replace_term]
    simp only [hmiss, Option.isNone_none, if_true]
    exact ⟨_, rfl⟩

theorem load_rules_failure_cases_witness :
    (∃ e, load_search_replace_terms
        (.obj [("formatVersion".toList, .str "1.0".toList)]) "b-terms.json".toList none =
        .error e) ∧
      (∃ e, load_search_replace_terms (.arr [.num 3]) "b-terms.json".toList none = .error e) ∧
        (∃ e, validate_search_replace_term (.obj []) = .error e) :=
  ⟨load_rules_failure_cases.1 _ _ _ (Or.inr (Or.inl rfl)),
    load_rules_failure_cases.2.2.2.1 [.num 3] _ _ (.num 3)
      (List.mem_singleton.mpr rfl) ⟨_, rfl⟩,
    load_rules_failure_cases.2.2.2.2.2 [] rfl⟩

end ChapterClip
